import Mathlib

/-!
Verification development for the test-suite assembly pipeline of
`packages/playwright-test/src/runner/loadUtils.ts`.

The definitions below are a shallow embedding of `loadUtils.ts`.  External
collaborators that are not part of the given source (the filesystem walker,
the loader host, the shard partitioner, pattern matching) are either taken
as parameters of the pipeline or modelled from the specification; every such
definition says so in its doc comment.
-/

/-- A source location, mirroring the TypeScript `Location` record
(`file`, `line`, `column`). -/
structure Location where
  file : String
  line : Nat
  column : Nat
deriving DecidableEq, Repr

/-- A structured error, mirroring the TypeScript `TestError` as used by
`loadUtils.ts`: a message and an optional location. -/
structure TestError where
  message : String
  location : Option Location
deriving DecidableEq, Repr

/-- A command-line test-file filter (`TestFileFilter` of `util.ts`): a file
plus optional line/column hints. -/
structure TestFileFilter where
  file : String
  line : Option Nat
  column : Option Nat
deriving DecidableEq, Repr

/-- Modelled from the spec: the external title/pattern matcher is
`(pattern) → (titleString) → boolean`.  We use a small concrete pattern
language: a pattern either matches every title (the default `grep`), or
matches the titles containing a given substring. -/
inductive Pattern where
  | always : Pattern
  | substr : String → Pattern
deriving DecidableEq, Repr

/-- Character-list version of `isPrefix`, executable. -/
def leadsWith : List Char → List Char → Bool
  | [], _ => true
  | _ :: _, [] => false
  | a :: as, b :: bs => a == b && leadsWith as bs

/-- Substring test over character lists, executable. -/
def hasSub (n : List Char) : List Char → Bool
  | [] => leadsWith n []
  | c :: cs => leadsWith n (c :: cs) || hasSub n cs

/-- Evaluate a pattern on a rendered title string. -/
def Pattern.isMatch : Pattern → String → Bool
  | .always, _ => true
  | .substr s, t => hasSub s.toList t.toList

/-- The kind of a suite node, mirroring the constructor argument of
`new Suite(title, type)` in `common/test.ts`. -/
inductive SuiteType where
  | root : SuiteType
  | project : SuiteType
  | file : SuiteType
  | describe : SuiteType
deriving DecidableEq, Repr

mutual
/-- A project configuration (`FullProjectInternal`): name, `repeatEach`,
`_fullyParallel`, `grep`, `grepInvert` and the list of projects it depends
on (`_deps`, mirrored as embedded values). -/
inductive Project where
  | mk : String → Nat → Bool → Pattern → Option Pattern → ProjectList → Project
/-- A list of projects (spelled out so that the mutual recursion with
`Project` stays structural). -/
inductive ProjectList where
  | nil : ProjectList
  | cons : Project → ProjectList → ProjectList
end

def Project.name : Project → String
  | .mk n _ _ _ _ _ => n

def Project.repeatEach : Project → Nat
  | .mk _ r _ _ _ _ => r

def Project.fullyParallel : Project → Bool
  | .mk _ _ fp _ _ _ => fp

def Project.grep : Project → Pattern
  | .mk _ _ _ g _ _ => g

def Project.grepInvert : Project → Option Pattern
  | .mk _ _ _ _ gi _ => gi

def Project.deps : Project → ProjectList
  | .mk _ _ _ _ _ d => d

mutual
/-- Structural equality on projects (TypeScript `Map` keys are object
references; structurally equal project values are identified). -/
def Project.beq : Project → Project → Bool
  | .mk n r fp g gi d, .mk n' r' fp' g' gi' d' =>
    decide (n = n') && decide (r = r') && decide (fp = fp') && decide (g = g')
      && decide (gi = gi') && ProjectList.beq d d'
def ProjectList.beq : ProjectList → ProjectList → Bool
  | .nil, .nil => true
  | .nil, .cons _ _ => false
  | .cons _ _, .nil => false
  | .cons p ps, .cons q qs => Project.beq p q && ProjectList.beq ps qs
end

mutual
theorem Project.beq_iff : ∀ a b : Project, Project.beq a b = true ↔ a = b
  | .mk n r fp g gi d, .mk n' r' fp' g' gi' d' => by
    simp [Project.beq, ProjectList.beqL_iff d d']
    tauto
theorem ProjectList.beqL_iff : ∀ a b : ProjectList, ProjectList.beq a b = true ↔ a = b
  | .nil, .nil => by simp [ProjectList.beq]
  | .nil, .cons _ _ => by simp [ProjectList.beq]
  | .cons _ _, .nil => by simp [ProjectList.beq]
  | .cons p ps, .cons q qs => by
    simp [ProjectList.beq, Project.beq_iff p q, ProjectList.beqL_iff ps qs]
end

instance : DecidableEq Project := fun a b =>
  decidable_of_iff (Project.beq a b = true) (Project.beq_iff a b)

instance : DecidableEq ProjectList := fun a b =>
  decidable_of_iff (ProjectList.beq a b = true) (ProjectList.beqL_iff a b)

mutual
/-- The suite tree of `common/test.ts`: a `TestCase` leaf carries a title,
a location and its `_only` flag; a `Suite` node carries its type, title,
optional location, `_only` flag, `_requireFile` (set on file suites) and its
ordered `_entries`. -/
inductive STree where
  | test : String → Location → Bool → STree
  | node : SuiteType → String → Option Location → Bool → Option String → STreeList → STree
/-- A list of suite entries (spelled out so that recursion over the tree is
structural). -/
inductive STreeList where
  | nil : STreeList
  | cons : STree → STreeList → STreeList
end

def STreeList.ofList : List STree → STreeList
  | [] => .nil
  | s :: rest => .cons s (STreeList.ofList rest)

def STreeList.toList : STreeList → List STree
  | .nil => []
  | .cons s rest => s :: STreeList.toList rest

def STreeList.isEmpty : STreeList → Bool
  | .nil => true
  | .cons _ _ => false

/-- The `_requireFile` of a suite node (`none` for test cases). -/
def STree.requireFile : STree → Option String
  | .test _ _ _ => none
  | .node _ _ _ _ rf _ => rf

/-- The `_only` flag of a node. -/
def STree.isOnly : STree → Bool
  | .test _ _ o => o
  | .node _ _ _ o _ _ => o

/-- The direct child entries of a node, as an ordinary list. -/
def STree.children : STree → List STree
  | .test _ _ _ => []
  | .node _ _ _ _ _ ch => ch.toList

/-- Modelled from the spec: the title-path segment a suite contributes
(`Suite.titlePath` of `common/test.ts`, which is not part of the given
source).  Per the data model (a test's title path is the list of
group titles ending in its own title) and the two slice offsets of
`loadUtils.ts` together with their comments — `slice(1)` drops exactly the
file-suite root segment of a stand-alone file suite, and `slice(2)` is
commented `Skip root and file.` for items of the assembled root — the root
suite contributes its (empty) title, file suites and describe groups
contribute their titles, and project suites contribute no segment. -/
def suiteSeg (st : SuiteType) (title : String) : List String :=
  match st with
  | .project => []
  | _ => [title]

/-- One test case as observed through traversal: its full title path (the
ancestor segments followed by its own title), its location and its `_only`
flag. -/
structure TestEntry where
  path : List String
  loc : Location
  only : Bool
deriving DecidableEq, Repr

mutual
/-- All test cases of a tree in declaration order, with title paths built
under the accumulated ancestor segments `pfx` (mirrors
`Suite.allTests()` combined with `titlePath()`). -/
def allTests (pfx : List String) : STree → List TestEntry
  | .test t l o => [⟨pfx ++ [t], l, o⟩]
  | .node st ti _ _ _ ch => allTestsL (pfx ++ suiteSeg st ti) ch
def allTestsL (pfx : List String) : STreeList → List TestEntry
  | .nil => []
  | .cons c cs => allTests pfx c ++ allTestsL pfx cs
end

/-- A focused item as returned by `_getOnlyItems`: its title path and its
location (optional, as on suites). -/
structure OnlyItem where
  path : List String
  loc : Option Location
deriving DecidableEq, Repr

mutual
/-- Modelled from the spec: `Suite._getOnlyItems` of `common/test.ts` (not
part of the given source) collects every test case or group explicitly
marked as focused, the node itself first and then its entries in order. -/
def getOnlyItems (pfx : List String) : STree → List OnlyItem
  | .test t l o => if o then [⟨pfx ++ [t], some l⟩] else []
  | .node st ti lo o _ ch =>
    (if o then [⟨pfx ++ suiteSeg st ti, lo⟩] else []) ++ getOnlyItemsL (pfx ++ suiteSeg st ti) ch
def getOnlyItemsL (pfx : List String) : STreeList → List OnlyItem
  | .nil => []
  | .cons c cs => getOnlyItems pfx c ++ getOnlyItemsL pfx cs
end

mutual
/-- Modelled from the spec: `filterTestsRemoveEmptySuites` of
`common/suiteUtils.ts` (not part of the given source): keep exactly the
test cases whose full title path satisfies `keep`, pruning any suite left
empty; the result is `none` when nothing survives (the TypeScript function
returns `false` and the caller drops the suite). -/
def filterTestsRemoveEmptySuites (keep : List String → Bool) (pfx : List String) :
    STree → Option STree
  | .test t l o => if keep (pfx ++ [t]) then some (.test t l o) else none
  | .node st ti lo o rf ch =>
    let ch' := filterTestsL keep (pfx ++ suiteSeg st ti) ch
    if ch'.isEmpty then none else some (.node st ti lo o rf ch')
def filterTestsL (keep : List String → Bool) (pfx : List String) : STreeList → STreeList
  | .nil => .nil
  | .cons c cs =>
    match filterTestsRemoveEmptySuites keep pfx c with
    | some c' => .cons c' (filterTestsL keep pfx cs)
    | none => filterTestsL keep pfx cs
end

mutual
/-- Modelled from the spec: the location-based pruning underlying
`filterByFocusedLine` of `common/suiteUtils.ts` (not part of the given
source): keep exactly the test cases whose location satisfies `keep`,
pruning any group left empty. -/
def pruneLocTree (keep : Location → Bool) : STree → Option STree
  | .test t l o => if keep l then some (.test t l o) else none
  | .node st ti lo o rf ch =>
    let ch' := pruneLocList keep ch
    if ch'.isEmpty then none else some (.node st ti lo o rf ch')
def pruneLocList (keep : Location → Bool) : STreeList → STreeList
  | .nil => .nil
  | .cons c cs =>
    match pruneLocTree keep c with
    | some c' => .cons c' (pruneLocList keep cs)
    | none => pruneLocList keep cs
end

/-- Does a command-line file filter carry a line or column hint? -/
def TestFileFilter.hasLineHint (f : TestFileFilter) : Bool :=
  f.line.isSome || f.column.isSome

/-- Modelled from the spec: does a test location match one of the focused
line/column filters (same file, and the line/column hints, when present,
agree)? -/
def focusedLineKeep (filters : List TestFileFilter) (l : Location) : Bool :=
  filters.any fun f =>
    decide (f.file = l.file) && (f.line.isNone || decide (f.line = some l.line))
      && (f.column.isNone || decide (f.column = some l.column))

/-- Modelled from the spec: `filterByFocusedLine` of `common/suiteUtils.ts`
(not part of the given source): when some command-line file filter carries a
line/column hint, prune the tree to the test cases located at a hinted
position; otherwise leave the tree unchanged.  The root node itself is kept
either way (the TypeScript function mutates the given suite in place). -/
def filterByFocusedLine (filters : List TestFileFilter) (s : STree) : STree :=
  if filters.any TestFileFilter.hasLineHint then
    match s with
    | .test t l o => .test t l o
    | .node st ti lo o rf ch => .node st ti lo o rf (pruneLocList (focusedLineKeep filters) ch)
  else s

mutual
/-- Modelled from the spec: `filterSuiteWithOnlySemantics` of
`common/suiteUtils.ts` (not part of the given source).  Returns the node
with its entries narrowed to the focused ones, together with the flag the
TypeScript function returns; when the flag is `false` the entries are left
untouched. -/
def filterOnlyAux : STree → STree × Bool
  | .test t l o => (.test t l o, o)
  | .node st ti lo o rf ch =>
    let kept := filterOnlyKeep ch
    if kept.isEmpty then (.node st ti lo o rf ch, false) else (.node st ti lo o rf kept, true)
/-- The entries a suite keeps under only-semantics: a test is kept when
focused; a child suite is kept narrowed when narrowing found focused
content, and kept whole when it is itself marked focused. -/
def filterOnlyKeep : STreeList → STreeList
  | .nil => .nil
  | .cons c cs =>
    let rest := filterOnlyKeep cs
    match c with
    | .test t l o => if o then .cons (.test t l o) rest else rest
    | .node st ti lo o rf ch =>
      match filterOnlyAux (.node st ti lo o rf ch) with
      | (c', true) => .cons c' rest
      | (_, false) => if o then .cons (.node st ti lo o rf ch) rest else rest
end

/-- Modelled from the spec: `filterOnly` of `common/suiteUtils.ts` (not part
of the given source): when no focused item exists anywhere the tree is
unchanged; otherwise narrow it with only-semantics. -/
def filterOnly (s : STree) : STree :=
  if (getOnlyItems [] s).isEmpty then s else (filterOnlyAux s).1

/-- Modelled from the spec: `Suite._prependSuite` of `common/test.ts` (not
part of the given source): insert the given suite before the existing
children. -/
def prependSuite (s : STree) (root : STree) : STree :=
  match root with
  | .test t l o => .test t l o
  | .node st ti lo o rf ch => .node st ti lo o rf (.cons s ch)

/-- Prepend each suite of the list in turn (the dependency loop of
`loadAllTests`). -/
def prependAll (suites : List STree) (root : STree) : STree :=
  suites.foldl (fun r s => prependSuite s r) root

/-- Modelled from the spec: `path.relative(rootDir, file)` as used by
`buildItemLocation` — when the file sits under the root directory, drop the
root prefix; otherwise return the file unchanged. -/
def relPath (rootDir file : String) : String :=
  if leadsWith (rootDir ++ "/").toList file.toList then
    String.mk (file.toList.drop (rootDir ++ "/").toList.length)
  else file

/-- `buildItemLocation` of `loadUtils.ts`: an empty string when the item has
no location, and `relative(rootDir, file):line` otherwise. -/
def buildItemLocation (rootDir : String) (loc : Option Location) : String :=
  match loc with
  | none => ""
  | some l => relPath rootDir l.file ++ ":" ++ toString l.line

/-- The error built for one focused item in `createForbidOnlyErrors` of
`loadUtils.ts`: the message names the item's title path with the first two
segments dropped (`titlePath().slice(2)`, commented `Skip root and file.`)
joined by spaces, and the error carries the item's location. -/
def forbidErrorOf (it : OnlyItem) : TestError :=
  ⟨"Error: focused item found in the --forbid-only mode: \""
      ++ String.intercalate " " (it.path.drop 2) ++ "\"", it.loc⟩

/-- `createForbidOnlyErrors` of `loadUtils.ts`: one error per focused item. -/
def createForbidOnlyErrors (items : List OnlyItem) : List TestError :=
  items.map forbidErrorOf

/-- Duplicate-title scan of one file suite (`createDuplicateTitlesErrors` of
`loadUtils.ts`): walk the file's tests in order keeping a map from joined
title (with the file-suite root segment dropped, `titlePath().slice(1)`) to
the test stored for that title; on a repeat emit an error located at the
repeating test whose message cites the stored test's `file:line`.  The map
entry is overwritten after every test (`testsByFullTitle.set`), exactly as
in the source. -/
def dupScan (rootDir : String) : List TestEntry → List (String × TestEntry) → List TestError
  | [], _ => []
  | t :: rest, seen =>
    let fullTitle := String.intercalate " › " (t.path.drop 1)
    let here : List TestError :=
      match (seen.find? fun e => decide (e.1 = fullTitle)).map Prod.snd with
      | some existing =>
        [⟨"Error: duplicate test title \"" ++ fullTitle ++ "\", first declared in "
            ++ buildItemLocation rootDir (some existing.loc), some t.loc⟩]
      | none => []
    here ++ dupScan rootDir rest ((fullTitle, t) :: seen.filter fun e => !decide (e.1 = fullTitle))

/-- The configuration slice of `FullConfigInternal` that `loadAllTests`
reads: the project list, whether sharding is configured, `forbidOnly` and
`rootDir`. -/
structure Config where
  projects : List Project
  shard : Bool
  forbidOnly : Bool
  rootDir : String

/-- `createDuplicateTitlesErrors` of `loadUtils.ts`: scan every file suite
independently. -/
def createDuplicateTitlesErrors (config : Config) (fileSuites : List STree) : List TestError :=
  fileSuites.foldr (fun fs acc => dupScan config.rootDir (allTests [] fs) [] ++ acc) []

/-- The `LoadOptions` record of `loadUtils.ts`. -/
structure LoadOptions where
  listOnly : Bool
  testFileFilters : List TestFileFilter
  testTitleMatcher : Option Pattern
  projectFilter : Option (List String)
  passWithNoTests : Option Bool

/-- Modelled from the spec: `filterProjects` of `runner/projectUtils.ts`
(not part of the given source): with no project filter every project is
considered, otherwise the projects whose name appears in the filter. -/
def filterProjects (projects : List Project) (projectFilter : Option (List String)) :
    List Project :=
  match projectFilter with
  | none => projects
  | some names => projects.filter fun p => names.any fun n => decide (n = p.name)

/-- Modelled from the spec: `createFileMatcherFromFilters` of `util.ts` (not
part of the given source): a file path matches when it is one of the
filtered files. -/
def fileMatcherFromFilters (filters : List TestFileFilter) (file : String) : Bool :=
  filters.any fun f => decide (f.file = file)

mutual
/-- Modelled from the spec: the transitive dependency closure of a single
project (`projectsThatAreDependencies` of `runner/projectUtils.ts` is not
part of the given source). -/
def projectClosure : Project → List Project
  | .mk _ _ _ _ _ ds => projectClosureL ds
def projectClosureL : ProjectList → List Project
  | .nil => []
  | .cons p ps => (p :: projectClosure p) ++ projectClosureL ps
end

/-- First-occurrence deduplication of a project list. -/
def dedupProjects (l : List Project) : List Project :=
  l.foldl (fun acc p => if p ∈ acc then acc else acc ++ [p]) []

/-- Modelled from the spec: `projectsThatAreDependencies` of
`runner/projectUtils.ts` (not part of the given source): every project that
is transitively a dependency of one of the given projects, deduplicated, in
the deterministic order of the closure walk. -/
def projectsThatAreDependencies (ps : List Project) : List Project :=
  dedupProjects (ps.foldr (fun p acc => projectClosure p ++ acc) [])

/-- The project-to-files association (the TypeScript `Map<FullProjectInternal,
string[]>`), as an insertion-ordered association list. -/
def PMap : Type := List (Project × List String)

/-- `Map.get`. -/
def aget (p : Project) : PMap → Option (List String)
  | [] => none
  | (q, v) :: rest => if q = p then some v else aget p rest

/-- `Map.set`: update in place when the key is present, append otherwise. -/
def aset (p : Project) (v : List String) : PMap → PMap
  | [] => [(p, v)]
  | (q, w) :: rest => if q = p then (q, v) :: rest else (q, w) :: aset p v rest

/-- `Map.delete`. -/
def adel (p : Project) : PMap → PMap
  | [] => []
  | (q, w) :: rest => if q = p then rest else (q, w) :: adel p rest

/-- `Map.keys`, in insertion order. -/
def akeys (m : PMap) : List Project :=
  m.map Prod.fst

/-- The deduplication performed by inserting into a `Set<string>` in
iteration order: keep the first occurrence of every element. -/
def tsDedup (l : List String) : List String :=
  l.foldl (fun acc f => if f ∈ acc then acc else acc ++ [f]) []

/-- Everything `loadAllTests` consumes: the configuration and options
together with its external collaborators — the per-project file walker
(`collectFilesForProject`), the shard partitioner (`filterForShard`) and
the loader host.  The loader host is one capability
`load : filePath → fileEntries × recoverable errors, or a thrown error`
(whether it runs in process or out of process is a configuration choice with
no effect on the data). -/
structure PipelineEnv where
  config : Config
  options : LoadOptions
  collectFiles : Project → List String
  shardFilter : PMap → PMap
  load : String → Except String (List STree × List TestError)

/-- The projects selected on the command line (`filterProjects` call of
`loadAllTests`). -/
def selectedProjects (e : PipelineEnv) : List Project :=
  filterProjects e.config.projects e.options.projectFilter

/-- The baseline file map: all files of every selected project, collected
before any filtering (`allFilesForProject`). -/
def allFilesMap (e : PipelineEnv) : PMap :=
  (selectedProjects e).foldl (fun m p => aset p (e.collectFiles p) m) []

/-- The command-line-filtered file map: each project's baseline files run
through the file matcher (when filters were given), projects left with no
files dropped (`filesToRunByProject` right after the filter loop). -/
def filteredFilesMap (e : PipelineEnv) : PMap :=
  (allFilesMap e).foldl
    (fun m pr =>
      let filteredFiles :=
        if e.options.testFileFilters.isEmpty then pr.2
        else pr.2.filter (fileMatcherFromFilters e.options.testFileFilters)
      if filteredFiles.isEmpty then m else aset pr.1 filteredFiles m)
    []

/-- The file map after dependency projects are removed (they are re-added
later, unfiltered). -/
def afterDepsRemoved (e : PipelineEnv) : PMap :=
  (projectsThatAreDependencies (akeys (filteredFilesMap e))).foldl
    (fun m p => adel p m) (filteredFilesMap e)

/-- The file map after sharding of the top-level projects (the shard
partitioner only runs when sharding is configured). -/
def afterShard (e : PipelineEnv) : PMap :=
  if e.config.shard then e.shardFilter (afterDepsRemoved e) else afterDepsRemoved e

/-- The top-level projects: whatever sharding left behind. -/
def topLevelProjects (e : PipelineEnv) : List Project :=
  akeys (afterShard e)

/-- The dependency closure, re-built from the post-shard top-level set. -/
def dependencyProjects (e : PipelineEnv) : List Project :=
  projectsThatAreDependencies (topLevelProjects e)

/-- The final project-to-files map: the post-shard map with every dependency
project (re-)added carrying its baseline file list, disregarding filters. -/
def filesToRunMap (e : PipelineEnv) : PMap :=
  (dependencyProjects e).foldl
    (fun m p => aset p ((aget p (allFilesMap e)).getD (e.collectFiles p)) m)
    (afterShard e)

/-- The union of all projects' file lists, in map iteration order. -/
def unionFiles (e : PipelineEnv) : List String :=
  ((filesToRunMap e).map Prod.snd).flatten

/-- The deduplicated union (`allTestFiles : Set<string>`). -/
def allTestFilesOf (e : PipelineEnv) : List String :=
  tsDedup (unionFiles e)

/-- Modelled from the spec: the loader host produces one file suite per
file, keyed by the file's absolute path. -/
def mkFileSuite (file : String) (entries : List STree) : STree :=
  .node .file file none false (some file) (STreeList.ofList entries)

/-- The loading loop of `loadAllTests`: load each file in turn, pushing the
file suite and the recoverable errors; a thrown load error aborts the loop
and propagates. -/
def loadLoop (load : String → Except String (List STree × List TestError)) :
    List String → Except String (List STree × List TestError)
  | [] => .ok ([], [])
  | f :: rest =>
    match load f with
    | .error msg => .error msg
    | .ok (entries, errs) =>
      match loadLoop load rest with
      | .error msg => .error msg
      | .ok (suites, restErrs) => .ok (mkFileSuite f entries :: suites, errs ++ restErrs)

/-- The files on which `loadTestFile` is actually invoked: each file of the
list in turn, up to and including the first one whose load throws. -/
def loadRequests (load : String → Except String (List STree × List TestError)) :
    List String → List String
  | [] => []
  | f :: rest =>
    match load f with
    | .error _ => [f]
    | .ok _ => f :: loadRequests load rest

/-- The outcome of the loading phase. -/
def loadOutcome (e : PipelineEnv) : Except String (List STree × List TestError) :=
  loadLoop e.load (allTestFilesOf e)

/-- How many times `loaderHost.stop()` runs during the loading phase: the
source awaits the load of every file and then calls `stop()` once, with no
`try`/`finally` — so a thrown load error leaves `stop()` uncalled. -/
def loaderStopCount (e : PipelineEnv) : Nat :=
  match loadOutcome e with
  | .ok _ => 1
  | .error _ => 0

/-- The `fileSuitesMap` built inside `createProjectSuite`: a map from
`_requireFile` to file suite, later entries overwriting earlier ones. -/
def fileSuitesMapGet (fileSuits : List STree) (file : String) : Option STree :=
  fileSuits.foldl
    (fun acc fs => if fs.requireFile = some file then some fs else acc) none

/-- Modelled from the spec: `buildFileSuiteForProject` of
`common/suiteUtils.ts` (not part of the given source) clones the file suite
for one (project, repeat index) pair; the stamping of repeat index and
project context does not change titles, locations or focus markers, which
are all this development observes. -/
def buildFileSuiteForProject (_project : Project) (fileSuite : STree)
    (_repeatEachIndex : Nat) : STree :=
  fileSuite

/-- The project suite as built by the loop of `createProjectSuite`, before
any filtering: for each file of the project's list (skipping files with no
file suite), one built clone per repeat index. -/
def rawProjectSuite (fileSuits : List STree) (project : Project) (files : List String) :
    STree :=
  .node .project project.name none false none
    (STreeList.ofList
      (files.foldr
        (fun file acc =>
          match fileSuitesMapGet fileSuits file with
          | none => acc
          | some fs =>
            ((List.range project.repeatEach).map
              (buildFileSuiteForProject project fs)) ++ acc)
        []))

/-- The composite title predicate of `createProjectSuite`: exclude the test
when `grepInvert` matches its joined title path; otherwise include it
exactly when `grep` matches and the external title matcher, when supplied,
matches too. -/
def titleKeep (project : Project) (testTitleMatcher : Option Pattern)
    (path : List String) : Bool :=
  let grepTitle := String.intercalate " " path
  if (match project.grepInvert with
      | some gi => gi.isMatch grepTitle
      | none => false) then
    false
  else
    project.grep.isMatch grepTitle &&
      (match testTitleMatcher with
       | none => true
       | some m => m.isMatch grepTitle)

/-- `createProjectSuite` of `loadUtils.ts`: build the repeat-expanded
project suite, apply the line/column focus filter, then apply the composite
title predicate, returning `none` when no test survives. -/
def createProjectSuite (fileSuits : List STree) (project : Project)
    (options : LoadOptions) (files : List String) : Option STree :=
  filterTestsRemoveEmptySuites (titleKeep project options.testTitleMatcher) []
    (filterByFocusedLine options.testFileFilters (rawProjectSuite fileSuits project files))

/-- The neutralized options passed when composing a dependency project:
`testFileFilters` emptied and `testTitleMatcher` removed, everything else
kept ( `{ ...options, testFileFilters: [], testTitleMatcher: undefined }` ). -/
def dependencyLoadOptions (o : LoadOptions) : LoadOptions :=
  ⟨o.listOnly, [], none, o.projectFilter, o.passWithNoTests⟩

/-- The composed suites of the top-level projects, in resolution order,
empty compositions dropped. -/
def composeTop (e : PipelineEnv) (fileSuits : List STree) : List STree :=
  (topLevelProjects e).filterMap fun p =>
    createProjectSuite fileSuits p e.options ((aget p (filesToRunMap e)).getD [])

/-- The root suite right after the top-level projects are attached and
before the forbid-only check, the only-filter and the dependency loop
(`new Suite('', 'root')` plus the `_addSuite` loop). -/
def rootAfterTopLevel (e : PipelineEnv) (fileSuits : List STree) : STree :=
  .node .root "" none false none (STreeList.ofList (composeTop e fileSuits))

/-- The composed suites of the dependency projects, in closure resolution
order, composed with the neutralized options, empty compositions dropped. -/
def composeDeps (e : PipelineEnv) (fileSuits : List STree) : List STree :=
  (dependencyProjects e).filterMap fun p =>
    createProjectSuite fileSuits p (dependencyLoadOptions e.options)
      ((aget p (filesToRunMap e)).getD [])

/-- The forbid-only errors `loadAllTests` pushes: when the run forbids
focused tests, one error per focused item of the root as it stands after
top-level composition (and before only-filtering and the dependency loop). -/
def forbidOnlyErrorsOf (e : PipelineEnv) (fileSuits : List STree) : List TestError :=
  if e.config.forbidOnly then
    let onlyTestsAndSuites := getOnlyItems [] (rootAfterTopLevel e fileSuits)
    if 0 < onlyTestsAndSuites.length then createForbidOnlyErrors onlyTestsAndSuites else []
  else []

/-- The root suite `loadAllTests` returns on a successful load: the
top-level root, only-filtered, with every composed dependency suite
prepended in turn. -/
def assembledRoot (e : PipelineEnv) (fileSuits : List STree) : STree :=
  prependAll (composeDeps e fileSuits) (filterOnly (rootAfterTopLevel e fileSuits))

/-- The error sink after a successful run: the recoverable load errors,
then the duplicate-title errors, then the forbid-only errors. -/
def pipelineErrors (e : PipelineEnv) (fileSuits : List STree)
    (loadErrs : List TestError) : List TestError :=
  loadErrs ++ createDuplicateTitlesErrors e.config fileSuits ++ forbidOnlyErrorsOf e fileSuits

/-- `loadAllTests` of `loadUtils.ts`: run the loading phase; on success
return the assembled root together with the accumulated errors, and
propagate a thrown load error otherwise. -/
def loadAllTests (e : PipelineEnv) : Except String (STree × List TestError) :=
  match loadOutcome e with
  | .error msg => .error msg
  | .ok (fileSuits, loadErrs) =>
    .ok (assembledRoot e fileSuits, pipelineErrors e fileSuits loadErrs)

theorem STreeList.toList_ofList : ∀ l : List STree, (STreeList.ofList l).toList = l
  | [] => rfl
  | s :: rest => by simp [STreeList.ofList, STreeList.toList, STreeList.toList_ofList rest]

/-- Push a list of entries, in order, in front of an entry list. -/
def STreeList.consAll (l : List STree) (t : STreeList) : STreeList :=
  l.foldr .cons t

theorem STreeList.toList_consAll : ∀ (l : List STree) (t : STreeList),
    (STreeList.consAll l t).toList = l ++ t.toList
  | [], _ => rfl
  | s :: rest, t => by
    simp [STreeList.consAll, STreeList.toList, List.foldr] at *
    simpa [STreeList.consAll] using STreeList.toList_consAll rest t

/-- Prepending suites one by one puts them, in reverse, in front of the
existing children. -/
theorem prependAll_node : ∀ (l : List STree) (st : SuiteType) (ti : String)
    (lo : Option Location) (o : Bool) (rf : Option String) (ch : STreeList),
    prependAll l (.node st ti lo o rf ch)
      = .node st ti lo o rf (STreeList.consAll l.reverse ch)
  | [], _, _, _, _, _, _ => rfl
  | s :: rest, st, ti, lo, o, rf, ch => by
    have ih := prependAll_node rest st ti lo o rf (.cons s ch)
    simp only [prependAll, List.foldl, prependSuite] at ih ⊢
    rw [ih]
    simp [STreeList.consAll, List.foldr_append]

/-- The tests of an optional suite (an absent suite has none), under
ancestor segments `pfx`. -/
def testsOfOption (pfx : List String) : Option STree → List TestEntry
  | none => []
  | some s => allTests pfx s

mutual
/-- Title filtering retains exactly the tests whose full title path
satisfies the predicate (tree version). -/
theorem allTests_filterTests (keep : List String → Bool) :
    ∀ (pfx : List String) (s : STree),
      testsOfOption pfx (filterTestsRemoveEmptySuites keep pfx s)
        = (allTests pfx s).filter fun t => keep t.path
  | pfx, .test t l o => by
    by_cases h : keep (pfx ++ [t]) <;>
      simp [filterTestsRemoveEmptySuites, testsOfOption, allTests, h]
  | pfx, .node st ti lo o rf ch => by
    have ihl := allTestsL_filterTestsL keep (pfx ++ suiteSeg st ti) ch
    simp only [filterTestsRemoveEmptySuites, allTests]
    rw [← ihl]
    cases hch : filterTestsL keep (pfx ++ suiteSeg st ti) ch with
    | nil => simp [STreeList.isEmpty, testsOfOption, allTestsL]
    | cons c cs => simp [STreeList.isEmpty, testsOfOption, allTests]
theorem allTestsL_filterTestsL (keep : List String → Bool) :
    ∀ (pfx : List String) (l : STreeList),
      allTestsL pfx (filterTestsL keep pfx l)
        = (allTestsL pfx l).filter fun t => keep t.path
  | _, .nil => by simp [filterTestsL, allTestsL]
  | pfx, .cons c cs => by
    have iht := allTests_filterTests keep pfx c
    have ihl := allTestsL_filterTestsL keep pfx cs
    simp only [filterTestsL, allTestsL, List.filter_append]
    cases h : filterTestsRemoveEmptySuites keep pfx c with
    | none =>
      rw [h] at iht
      simp only [testsOfOption] at iht
      simp [allTestsL, ihl, ← iht]
    | some c' =>
      rw [h] at iht
      simp only [testsOfOption] at iht
      simp [allTestsL, ihl, iht]
end

/-- Did an `Except` computation return normally? -/
def exOk {α : Type} : Except String α → Bool
  | .ok _ => true
  | .error _ => false

theorem loadLoop_isOk (load : String → Except String (List STree × List TestError)) :
    ∀ files : List String, exOk (loadLoop load files) = files.all fun f => exOk (load f) := by
  intro files
  induction files with
  | nil => rfl
  | cons f rest ih =>
    simp only [loadLoop, List.all_cons]
    cases hf : load f with
    | error msg => simp [exOk, hf]
    | ok r =>
      obtain ⟨entries, errs⟩ := r
      cases hr : loadLoop load rest with
      | error msg => rw [hr] at ih; simpa [exOk, hf, hr] using ih.symm
      | ok r2 => rw [hr] at ih; simpa [exOk, hf, hr] using ih.symm

theorem loadRequests_of_all_ok (load : String → Except String (List STree × List TestError)) :
    ∀ files : List String, (∀ f ∈ files, exOk (load f) = true) →
      loadRequests load files = files := by
  intro files
  induction files with
  | nil => intro _; rfl
  | cons f rest ih =>
    intro h
    have hf := h f (by simp)
    cases hload : load f with
    | error msg => rw [hload] at hf; simp [exOk] at hf
    | ok r =>
      simp only [loadRequests, hload]
      exact congrArg _ (ih fun g hg => h g (by simp [hg]))

theorem mem_foldl_dedup (x : String) :
    ∀ (l acc : List String),
      (x ∈ l.foldl (fun a f => if f ∈ a then a else a ++ [f]) acc) ↔ (x ∈ acc ∨ x ∈ l) := by
  intro l
  induction l with
  | nil => simp
  | cons f rest ih =>
    intro acc
    simp only [List.foldl_cons]
    by_cases hf : f ∈ acc
    · rw [if_pos hf, ih acc]
      constructor
      · rintro (h | h)
        · exact Or.inl h
        · exact Or.inr (List.mem_cons_of_mem _ h)
      · rintro (h | h)
        · exact Or.inl h
        · rcases List.mem_cons.mp h with h | h
          · exact Or.inl (h ▸ hf)
          · exact Or.inr h
    · rw [if_neg hf, ih (acc ++ [f])]
      simp only [List.mem_append, List.mem_singleton, List.mem_cons]
      tauto

theorem nodup_foldl_dedup :
    ∀ (l acc : List String), acc.Nodup →
      (l.foldl (fun a f => if f ∈ a then a else a ++ [f]) acc).Nodup := by
  intro l
  induction l with
  | nil => intro acc h; simpa using h
  | cons f rest ih =>
    intro acc h
    simp only [List.foldl_cons]
    by_cases hf : f ∈ acc
    · rw [if_pos hf]; exact ih acc h
    · rw [if_neg hf]
      refine ih (acc ++ [f]) ?_
      simp [List.nodup_append, h, hf, List.disjoint_singleton]

theorem mem_tsDedup (x : String) (l : List String) : x ∈ tsDedup l ↔ x ∈ l := by
  rw [tsDedup, mem_foldl_dedup]
  simp

theorem nodup_tsDedup (l : List String) : (tsDedup l).Nodup :=
  nodup_foldl_dedup l [] List.nodup_nil

theorem aget_aset_self (p : Project) (v : List String) :
    ∀ m : PMap, aget p (aset p v m) = some v := by
  intro m
  induction m with
  | nil => simp [aset, aget]
  | cons e rest ih =>
    obtain ⟨q, w⟩ := e
    by_cases h : q = p
    · simp [aset, aget, h]
    · simp [aset, aget, h, ih]

theorem aget_aset_ne (p q : Project) (v : List String) (hqp : q ≠ p) :
    ∀ m : PMap, aget p (aset q v m) = aget p m := by
  intro m
  induction m with
  | nil => simp [aset, aget, hqp]
  | cons e rest ih =>
    obtain ⟨r, w⟩ := e
    by_cases hr : r = q
    · subst hr; simp [aset, aget, hqp, ih]
    · have hpq : ¬p = q := fun h => hqp h.symm
      by_cases hp : r = p <;> simp [aset, aget, hr, hp, hpq, ih]

theorem aget_foldl_aset_not_mem (f : Project → List String) (p : Project) :
    ∀ (l : List Project) (m : PMap), p ∉ l →
      aget p (l.foldl (fun m q => aset q (f q) m) m) = aget p m := by
  intro l
  induction l with
  | nil => intro m _; rfl
  | cons q rest ih =>
    intro m hp
    simp only [List.foldl_cons]
    rw [ih _ fun h => hp (List.mem_cons_of_mem _ h)]
    exact aget_aset_ne p q (f q) (fun h => hp (h ▸ List.mem_cons_self q rest)) m

theorem aget_foldl_aset_mem (f : Project → List String) (p : Project) :
    ∀ (l : List Project) (m : PMap), p ∈ l →
      aget p (l.foldl (fun m q => aset q (f q) m) m) = some (f p) := by
  intro l
  induction l with
  | nil => intro m h; simp at h
  | cons q rest ih =>
    intro m hp
    simp only [List.foldl_cons]
    by_cases hrest : p ∈ rest
    · exact ih _ hrest
    · have hq : q = p := by
        rcases List.mem_cons.mp hp with h | h
        · exact h.symm
        · exact absurd h hrest
      rw [aget_foldl_aset_not_mem f p rest _ hrest, hq, aget_aset_self]

theorem aget_foldl_aset_or (f : Project → List String) (p : Project) :
    ∀ (l : List Project) (m : PMap),
      aget p (l.foldl (fun m q => aset q (f q) m) m) = aget p m ∨
      aget p (l.foldl (fun m q => aset q (f q) m) m) = some (f p) := by
  intro l
  induction l with
  | nil => intro m; exact Or.inl rfl
  | cons q rest ih =>
    intro m
    simp only [List.foldl_cons]
    rcases ih (aset q (f q) m) with h | h
    · by_cases hq : q = p
      · subst hq; rw [h, aget_aset_self]; exact Or.inr rfl
      · rw [h, aget_aset_ne p q (f q) hq]; exact Or.inl rfl
    · exact Or.inr h

theorem filterOnly_node (st : SuiteType) (ti : String) (lo : Option Location) (o : Bool)
    (rf : Option String) (ch : STreeList) :
    ∃ ch2, filterOnly (.node st ti lo o rf ch) = .node st ti lo o rf ch2 := by
  rw [filterOnly]
  by_cases h : (getOnlyItems [] (STree.node st ti lo o rf ch)).isEmpty
  · rw [if_pos h]; exact ⟨ch, rfl⟩
  · rw [if_neg h]
    simp only [filterOnlyAux]
    by_cases h2 : (filterOnlyKeep ch).isEmpty
    · rw [if_pos h2]; exact ⟨ch, rfl⟩
    · rw [if_neg h2]; exact ⟨filterOnlyKeep ch, rfl⟩

theorem filterOnly_of_no_only (s : STree) (h : getOnlyItems [] s = []) :
    filterOnly s = s := by
  simp [filterOnly, h]

theorem filterByFocusedLine_nil (s : STree) : filterByFocusedLine [] s = s := by
  simp [filterByFocusedLine]

/-- The children of the assembled root decompose into the reversed
dependency suites followed by the only-filtered top-level children. -/
theorem assembled_children (e : PipelineEnv) (fileSuits : List STree) :
    (assembledRoot e fileSuits).children
      = (composeDeps e fileSuits).reverse
        ++ (filterOnly (rootAfterTopLevel e fileSuits)).children := by
  obtain ⟨ch2, h2⟩ :=
    filterOnly_node .root "" none false none (STreeList.ofList (composeTop e fileSuits))
  have hroot : filterOnly (rootAfterTopLevel e fileSuits)
      = .node .root "" none false none ch2 := h2
  rw [assembledRoot, hroot, prependAll_node]
  simp [STree.children, STreeList.toList_consAll]

/-- The spec-side reading of filter composition: the invert pattern, when
present, does not match; the grep pattern matches; the external matcher,
when present, matches. -/
def titleRetainedSpec (project : Project) (testTitleMatcher : Option Pattern)
    (title : String) : Prop :=
  (∀ gi, project.grepInvert = some gi → gi.isMatch title = false) ∧
  project.grep.isMatch title = true ∧
  (∀ m, testTitleMatcher = some m → m.isMatch title = true)

theorem titleKeep_iff (project : Project) (ttm : Option Pattern) (path : List String) :
    titleKeep project ttm path = true
      ↔ titleRetainedSpec project ttm (String.intercalate " " path) := by
  simp only [titleKeep, titleRetainedSpec]
  cases hgi : project.grepInvert with
  | none =>
    cases httm : ttm with
    | none => simp
    | some m => simp
  | some gi =>
    cases httm : ttm with
    | none =>
      by_cases hm : gi.isMatch (String.intercalate " " path) <;> simp [hm]
    | some m =>
      by_cases hm : gi.isMatch (String.intercalate " " path) <;> simp [hm]

/-- Claim C4: for every test composed for a top-level project, the title
filter of `createProjectSuite` retains the test iff `grepInvert` does not
match its joined title path, `grep` matches it, and the external title
matcher is absent or matches it. -/
theorem c4_title_filter_composition (fileSuits : List STree) (project : Project)
    (options : LoadOptions) (files : List String) (t : TestEntry) :
    t ∈ testsOfOption [] (createProjectSuite fileSuits project options files)
      ↔ t ∈ allTests [] (filterByFocusedLine options.testFileFilters
              (rawProjectSuite fileSuits project files))
          ∧ titleRetainedSpec project options.testTitleMatcher
              (String.intercalate " " t.path) := by
  rw [createProjectSuite, allTests_filterTests, List.mem_filter]
  exact and_congr_right fun _ => titleKeep_iff project options.testTitleMatcher t.path

/-- Claim C8: when a dependency project is composed, the command-line file
filters and the external title matcher are neutralized, but the project's
own `grep`/`grepInvert` still filter: the composed tests are exactly the
raw (unfiltered, repeat-expanded) tests whose joined title path passes
`grepInvert` (negatively) and `grep` (positively). -/
theorem c8_dependency_grep_applied (fileSuits : List STree) (project : Project)
    (options : LoadOptions) (files : List String) :
    testsOfOption []
        (createProjectSuite fileSuits project (dependencyLoadOptions options) files)
      = (allTests [] (rawProjectSuite fileSuits project files)).filter
          fun t =>
            (match project.grepInvert with
             | some gi => !gi.isMatch (String.intercalate " " t.path)
             | none => true)
            && project.grep.isMatch (String.intercalate " " t.path) := by
  rw [createProjectSuite,
    show (dependencyLoadOptions options).testFileFilters = [] from rfl,
    filterByFocusedLine_nil, allTests_filterTests]
  congr 1
  funext t
  rw [show (dependencyLoadOptions options).testTitleMatcher = none from rfl]
  simp only [titleKeep]
  cases hgi : project.grepInvert with
  | none => simp
  | some gi =>
    by_cases hm : gi.isMatch (String.intercalate " " t.path) <;> simp [hm]

/-- Claim C5: every dependency project enters the final project-to-files
map with its baseline (unfiltered, pre-shard) file list, exactly as the
file walker reported it in the initial collection step. -/
theorem c5_dependency_baseline_files (e : PipelineEnv) (p : Project)
    (h : p ∈ dependencyProjects e) :
    aget p (filesToRunMap e) = some (e.collectFiles p) := by
  have hbase : (aget p (allFilesMap e)).getD (e.collectFiles p) = e.collectFiles p := by
    rcases aget_foldl_aset_or e.collectFiles p (selectedProjects e) [] with h0 | h0
    · rw [allFilesMap, h0]; rfl
    · rw [allFilesMap, h0]; rfl
  rw [filesToRunMap,
    aget_foldl_aset_mem (fun q => (aget q (allFilesMap e)).getD (e.collectFiles q)) p
      (dependencyProjects e) (afterShard e) h]
  rw [hbase]

/-- Claim C6: on a run whose loads all return, `loadTestFile` is requested
exactly once for every distinct file of the union of all projects' file
lists, and zero times for any other file. -/
theorem c6_load_once_per_distinct_file (e : PipelineEnv)
    (h : ∀ f ∈ allTestFilesOf e, exOk (e.load f) = true) (f : String) :
    (loadRequests e.load (allTestFilesOf e)).count f
      = if f ∈ unionFiles e then 1 else 0 := by
  rw [loadRequests_of_all_ok e.load (allTestFilesOf e) h]
  by_cases hf : f ∈ unionFiles e
  · rw [if_pos hf]
    exact List.count_eq_one_of_mem (nodup_tsDedup _) ((mem_tsDedup f _).mpr hf)
  · rw [if_neg hf]
    exact List.count_eq_zero_of_not_mem fun hmem => hf ((mem_tsDedup f _).mp hmem)

/-- Claim C3 (decomposition form): on a successful load, the assembled
root's children are the reversed dependency suites followed by the
only-filtered top-level children — so every dependency-project suite sits
at a smaller child index than every top-level-project suite. -/
theorem c3_dependency_suites_precede (e : PipelineEnv) (fileSuits : List STree)
    (loadErrs : List TestError) (h : loadOutcome e = .ok (fileSuits, loadErrs)) :
    loadAllTests e = .ok (assembledRoot e fileSuits, pipelineErrors e fileSuits loadErrs)
      ∧ (assembledRoot e fileSuits).children
          = (composeDeps e fileSuits).reverse
            ++ (filterOnly (rootAfterTopLevel e fileSuits)).children :=
  ⟨by simp [loadAllTests, h], assembled_children e fileSuits⟩

/-- Claim C10: the dependency suites occupy the leading child indices of
the assembled root in the reverse of the dependency-closure resolution
order: child `i` is the `(n-1-i)`-th composed dependency suite. -/
theorem c10_dependency_prepend_reversed (e : PipelineEnv) (fileSuits : List STree)
    (loadErrs : List TestError) (h : loadOutcome e = .ok (fileSuits, loadErrs)) :
    loadAllTests e = .ok (assembledRoot e fileSuits, pipelineErrors e fileSuits loadErrs)
      ∧ ∀ i < (composeDeps e fileSuits).length,
          (assembledRoot e fileSuits).children[i]?
            = (composeDeps e fileSuits)[(composeDeps e fileSuits).length - 1 - i]? := by
  refine ⟨by simp [loadAllTests, h], fun i hi => ?_⟩
  rw [assembled_children]
  rw [List.getElem?_append_left (by simpa using hi)]
  exact List.getElem?_reverse hi

/-- Claim C7: when the run forbids focused tests, the error sink of a
successful run ends with exactly one forbid-only error per focused item of
the root as it stands after top-level composition — before the only-filter
runs and before dependency suites are prepended — each error naming the
item's title path with the first two (root and file) segments stripped and
carrying the item's location. -/
theorem c7_forbid_only_errors (e : PipelineEnv) (fileSuits : List STree)
    (loadErrs : List TestError) (h : loadOutcome e = .ok (fileSuits, loadErrs))
    (hf : e.config.forbidOnly = true) :
    loadAllTests e = .ok (assembledRoot e fileSuits,
      loadErrs ++ createDuplicateTitlesErrors e.config fileSuits
        ++ (getOnlyItems [] (rootAfterTopLevel e fileSuits)).map forbidErrorOf) := by
  have herr : forbidOnlyErrorsOf e fileSuits
      = (getOnlyItems [] (rootAfterTopLevel e fileSuits)).map forbidErrorOf := by
    rw [forbidOnlyErrorsOf, hf]
    cases hi : getOnlyItems [] (rootAfterTopLevel e fileSuits) with
    | nil => simp
    | cons a rest => simp [createForbidOnlyErrors]
  simp [loadAllTests, h, pipelineErrors, herr]

/-- Claim C9: focused items inside dependency-project suites neither
produce forbid-only errors nor trigger only-filtering: when the top-level
root carries no focused item, a forbidding run emits no forbid-only error
and the top-level children survive unfiltered, with the dependency suites
(whatever focus markers they contain) prepended whole. -/
theorem c9_dependency_only_isolated (e : PipelineEnv) (fileSuits : List STree)
    (loadErrs : List TestError) (h : loadOutcome e = .ok (fileSuits, loadErrs))
    (hf : e.config.forbidOnly = true)
    (hno : getOnlyItems [] (rootAfterTopLevel e fileSuits) = []) :
    loadAllTests e = .ok (assembledRoot e fileSuits,
        loadErrs ++ createDuplicateTitlesErrors e.config fileSuits)
      ∧ (assembledRoot e fileSuits).children
          = (composeDeps e fileSuits).reverse ++ composeTop e fileSuits := by
  constructor
  · have herr : forbidOnlyErrorsOf e fileSuits = [] := by
      rw [forbidOnlyErrorsOf, hf, hno]
      simp
    simp [loadAllTests, h, pipelineErrors, herr]
  · rw [assembled_children, filterOnly_of_no_only _ hno]
    simp [rootAfterTopLevel, STree.children, STreeList.toList_ofList]

/-- Claim C1 (amended): `loaderHost.stop()` runs exactly once on runs where
every `loadTestFile` call returns; when some call throws, the error
propagates out of the loading phase and `stop()` never runs — the source
has no `try`/`finally` around the loading loop. -/
theorem c1_loader_stop (e : PipelineEnv) :
    ((∀ f ∈ allTestFilesOf e, exOk (e.load f) = true) → loaderStopCount e = 1)
      ∧ ((∃ f ∈ allTestFilesOf e, exOk (e.load f) = false) → loaderStopCount e = 0) := by
  constructor
  · intro h
    have hok : exOk (loadOutcome e) = true := by
      rw [loadOutcome, loadLoop_isOk]
      exact List.all_eq_true.mpr h
    rw [loaderStopCount]
    cases ho : loadOutcome e with
    | ok r => rfl
    | error msg => rw [ho] at hok; simp [exOk] at hok
  · rintro ⟨f, hmem, hbad⟩
    have hall : (allTestFilesOf e).all (fun g => exOk (e.load g)) = false := by
      cases hb : (allTestFilesOf e).all fun g => exOk (e.load g) with
      | false => rfl
      | true =>
        have htrue := List.all_eq_true.mp hb f hmem
        rw [htrue] at hbad
        exact absurd hbad (by simp)
    have hok : exOk (loadOutcome e) = false := by
      rw [loadOutcome, loadLoop_isOk, hall]
    rw [loaderStopCount]
    cases ho : loadOutcome e with
    | ok r => rw [ho] at hok; simp [exOk] at hok
    | error msg => rfl

/-! Concrete runs used to evaluate the pipeline at specific inputs. -/

def locDup1 : Location := ⟨"/repo/a.ts", 1, 1⟩

def locDup2 : Location := ⟨"/repo/a.ts", 2, 1⟩

def locDup3 : Location := ⟨"/repo/a.ts", 3, 1⟩

/-- A single file declaring three tests with the same title path. -/
def dupFileSuite : STree :=
  mkFileSuite "/repo/a.ts"
    [.test "t" locDup1 false, .test "t" locDup2 false, .test "t" locDup3 false]

def dupConfig : Config := ⟨[], false, false, "/repo"⟩

/-- Claim C2 (code bug): on a file declaring the same title path three
times (lines 1, 2 and 3), the duplicate-title validation emits two errors,
each located at the repeating declaration — but the second message cites
`a.ts:2`, the location of the *second* occurrence, although the message
itself (and the claim) says `first declared in`: `testsByFullTitle.set`
overwrites the stored test after every test, so the map holds the most
recent occurrence, not the first. -/
theorem c2_duplicate_reference_behavior :
    createDuplicateTitlesErrors dupConfig [dupFileSuite]
      = [⟨"Error: duplicate test title \"t\", first declared in a.ts:1", some locDup2⟩,
         ⟨"Error: duplicate test title \"t\", first declared in a.ts:2", some locDup3⟩] := by
  decide

def locCrash : Location := ⟨"/repo/a.ts", 1, 1⟩

def crashProject : Project := .mk "a" 1 false .always none .nil

/-- A run whose only load throws. -/
def envCrash : PipelineEnv :=
  ⟨⟨[crashProject], false, false, "/repo"⟩, ⟨false, [], none, none, none⟩,
    fun _ => ["a.ts"], id, fun _ => .error "worker crashed"⟩

/-- Claim C1 counterexample: on a run where `loadTestFile` throws, the
loader host is not stopped exactly once — the loading phase never reaches
`stop()`. -/
theorem c1_counterexample : ¬loaderStopCount envCrash = 1 := by
  decide

def locP : Location := ⟨"/repo/p.ts", 5, 1⟩

def locD1 : Location := ⟨"/repo/d1.ts", 6, 1⟩

def locD2 : Location := ⟨"/repo/d2.ts", 7, 1⟩

def depD1 : Project := .mk "d1" 1 false .always none .nil

def depD2 : Project := .mk "d2" 1 false .always none .nil

def topP : Project := .mk "p" 1 false .always none (.cons depD1 (.cons depD2 .nil))

/-- A successful forbidding run: one top-level project with two dependency
projects; the first dependency's test is focused, the top-level test is
not. -/
def envA : PipelineEnv :=
  ⟨⟨[topP], false, true, "/repo"⟩, ⟨false, [], none, none, none⟩,
    fun pr => if pr.name = "p" then ["p.ts"] else if pr.name = "d1" then ["d1.ts"] else ["d2.ts"],
    id,
    fun f =>
      if f = "p.ts" then .ok ([.test "tp" locP false], [])
      else if f = "d1.ts" then .ok ([.test "t1" locD1 true], [])
      else .ok ([.test "t2" locD2 false], [])⟩

/-- The file suites `envA` loads. -/
def fsA : List STree :=
  [mkFileSuite "p.ts" [.test "tp" locP false],
   mkFileSuite "d1.ts" [.test "t1" locD1 true],
   mkFileSuite "d2.ts" [.test "t2" locD2 false]]

theorem c1_loader_stop_witness :
    loaderStopCount envA = 1 ∧ loaderStopCount envCrash = 0 :=
  ⟨(c1_loader_stop envA).1 (by decide),
   (c1_loader_stop envCrash).2 ⟨"a.ts", by decide, rfl⟩⟩

theorem c3_dependency_suites_precede_witness :
    loadAllTests envA = .ok (assembledRoot envA fsA, pipelineErrors envA fsA [])
      ∧ (assembledRoot envA fsA).children
          = (composeDeps envA fsA).reverse
            ++ (filterOnly (rootAfterTopLevel envA fsA)).children :=
  c3_dependency_suites_precede envA fsA [] rfl

theorem c5_dependency_baseline_files_witness :
    aget depD1 (filesToRunMap envA) = some (envA.collectFiles depD1) :=
  c5_dependency_baseline_files envA depD1 (by decide)

def sharedP1 : Project := .mk "p1" 1 false .always none .nil

def sharedP2 : Project := .mk "p2" 1 false .always none .nil

def locShared : Location := ⟨"/repo/shared.ts", 2, 1⟩

/-- Two top-level projects referencing the same file. -/
def envShared : PipelineEnv :=
  ⟨⟨[sharedP1, sharedP2], false, false, "/repo"⟩, ⟨false, [], none, none, none⟩,
    fun _ => ["shared.ts"], id, fun _ => .ok ([.test "t" locShared false], [])⟩

theorem c6_load_once_per_distinct_file_witness :
    (loadRequests envShared.load (allTestFilesOf envShared)).count "shared.ts"
      = if "shared.ts" ∈ unionFiles envShared then 1 else 0 :=
  c6_load_once_per_distinct_file envShared (by decide) "shared.ts"

def locQ : Location := ⟨"/repo/q.ts", 3, 1⟩

def topQ : Project := .mk "q" 1 false .always none .nil

/-- A forbidding run with one focused top-level test. -/
def envB : PipelineEnv :=
  ⟨⟨[topQ], false, true, "/repo"⟩, ⟨false, [], none, none, none⟩,
    fun _ => ["q.ts"], id, fun _ => .ok ([.test "tq" locQ true], [])⟩

/-- The file suites `envB` loads. -/
def fsB : List STree := [mkFileSuite "q.ts" [.test "tq" locQ true]]

theorem c7_forbid_only_errors_witness :
    loadAllTests envB = .ok (assembledRoot envB fsB,
      [] ++ createDuplicateTitlesErrors envB.config fsB
        ++ (getOnlyItems [] (rootAfterTopLevel envB fsB)).map forbidErrorOf) :=
  c7_forbid_only_errors envB fsB [] rfl rfl

theorem c9_dependency_only_isolated_witness :
    loadAllTests envA = .ok (assembledRoot envA fsA,
        [] ++ createDuplicateTitlesErrors envA.config fsA)
      ∧ (assembledRoot envA fsA).children
          = (composeDeps envA fsA).reverse ++ composeTop envA fsA :=
  c9_dependency_only_isolated envA fsA [] rfl rfl (by decide)

theorem c10_dependency_prepend_reversed_witness :
    (assembledRoot envA fsA).children[0]?
      = (composeDeps envA fsA)[(composeDeps envA fsA).length - 1 - 0]? :=
  (c10_dependency_prepend_reversed envA fsA [] rfl).2 0 (by decide)
